import Mathlib

/-!
# Alarm bot: duration codec, alarm registry and message handler

A shallow embedding of `main.go`.

* Go `int` and `int64` are 64-bit two's-complement integers: they are modelled by `Int`,
  and every arithmetic result goes through `wrap64`.  Division and remainder by the
  positive unit constants truncate toward zero (`Int.tdiv`, `Int.tmod`) and cannot overflow.
* A Go `string` that holds valid UTF-8 is a `String`; the regular-expression matcher and
  `strconv.Atoi` read its runes, a `List Char`.
* `AlarmMap` is a function from chat identifiers to an optional sequence (`none`: the key is
  absent; a `nil` and an empty slice are both `[]`).
* A channel is a number.  The only receiver of an alarm's channel is the `select` of the
  `sendWithDelay` goroutine started for it, so a `World` records for each channel whether
  that goroutine is still blocked in its `select`.  A send on the (unbuffered) channel
  completes exactly when it is; otherwise the sender never resumes, which the handler
  reports as `none`.
* `time.Now().UnixNano()` is the argument `now`.
-/

set_option linter.dupNamespace false

namespace AlarmBot

/-! ## Machine integers and constants -/

/-- The 64-bit two's-complement value of an exact integer. -/
def wrap64 (x : Int) : Int :=
  (x + 9223372036854775808) % 18446744073709551616 - 9223372036854775808

def NANO_SECOND : Int := 1000000000

def SECOND : Int := 1

def MINUTE : Int := 60

def HOUR : Int := 3600

def DAY : Int := 86400

structure Suffix where
  Suffix : String
  Coef : Int

def Suffixes : List Suffix :=
  [⟨"s", SECOND⟩, ⟨"m", MINUTE⟩, ⟨"h", HOUR⟩, ⟨"d", DAY⟩]

structure Alarm where
  ch : Nat
  time : Int
  delay : Int
deriving DecidableEq

/-! ## Library functions used by the program -/

/-- The verb `%d` of `fmt.Sprintf`: decimal digits, with a minus sign for a negative value. -/
def fmtD (x : Int) : String :=
  if x < 0 then "-" ++ String.mk (Nat.toDigits 10 x.natAbs)
  else String.mk (Nat.toDigits 10 x.natAbs)

/-- The class `\d` of Go regular expressions: the ASCII digits only. -/
def isDigit (c : Char) : Bool :=
  decide (48 ≤ c.toNat) && decide (c.toNat ≤ 57)

/-- The class `[smhd]` under the flag `(?i)`.  Go closes a class under Unicode simple case
folding, and the folding orbit of `s` is `s`, `S` and U+017F (LATIN SMALL LETTER LONG S). -/
def isUnitLetter (c : Char) : Bool :=
  c = 's' || c = 'S' || c = Char.ofNat 0x17F ||
  c = 'm' || c = 'M' || c = 'h' || c = 'H' || c = 'd' || c = 'D'

/-- Go's `strings.ToLower`.  The ASCII capitals are mapped to their small letters.  Outside
ASCII the library follows the Unicode case tables; no rune there has a digit, a unit letter
or U+017F as its lower case, and U+017F is its own lower case, so leaving those runes in
place gives the matcher the same digits and unit letters. -/
def ToLower (s : String) : String :=
  String.mk (s.data.map Char.toLower)

/-- Leftmost-first scan for the successive non-overlapping matches of `(?i)\d+[smhd]?`.
The second argument `cur` holds the digits of the match in progress (empty: no match is
open).  A digit extends the match; the first rune after the digits closes it, and belongs
to it when it is a unit letter. -/
def scanMatches : List Char → List Char → List (List Char)
  | [], cur => if cur.isEmpty then [] else [cur]
  | c :: cs, cur =>
    if isDigit c then scanMatches cs (cur ++ [c])
    else if cur.isEmpty then scanMatches cs []
    else if isUnitLetter c then (cur ++ [c]) :: scanMatches cs []
    else cur :: scanMatches cs []

/-- The call `re.FindAll(text, -1)` for `re = (?i)\d+[smhd]?`. -/
def FindAll (text : String) : List (List Char) :=
  scanMatches text.data []

/-- Go's `strings.HasSuffix`. -/
def HasSuffix (s : List Char) (suffix : String) : Bool :=
  suffix.data.isSuffixOf s

/-- Go's `strings.TrimSuffix`. -/
def TrimSuffix (s : List Char) (suffix : String) : List Char :=
  if HasSuffix s suffix then s.take (s.length - suffix.length) else s

/-- The number written by a run of decimal digits. -/
def digitsValue (ds : List Char) : Nat :=
  ds.foldl (fun acc c => 10 * acc + (c.toNat - 48)) 0

/-- Go's `strconv.Atoi` on a 64-bit platform: an optional sign and a non-empty run of ASCII
digits whose value fits an `int`; `none` stands for a non-nil error (syntax or range).  The
program never uses the number returned together with an error. -/
def Atoi (s : List Char) : Option Int :=
  let neg := s.head? = some '-'
  let ds := if s.head? = some '-' ∨ s.head? = some '+' then s.tail else s
  if ds.isEmpty || !ds.all isDigit then none
  else
    let v : Int := if neg then -(digitsValue ds : Int) else (digitsValue ds : Int)
    if v < -9223372036854775808 ∨ 9223372036854775807 < v then none else some v

/-- Go's insertion step of `sort`: the new element `x` moves left past every element it is
less than.  The sorted part is held with its last element first. -/
def insertLess {α : Type} (less : α → α → Bool) (x : α) : List α → List α
  | [] => [x]
  | y :: ys => if less x y then y :: insertLess less x ys else x :: y :: ys

/-- Go's `sort.Slice`, as the insertion sort the library runs on slices of at most 12
elements.  `sort.Slice` is not stable: on longer slices it runs a quicksort variant, whose
result can order differently the elements neither of which is less than the other.  The
sequence of sort keys is the same for every sorted permutation (`sortSlice_keys_unique`),
and nothing proved below depends on the order of tied elements. -/
def sortSlice {α : Type} (less : α → α → Bool) (data : List α) : List α :=
  (data.foldl (fun sorted x => insertLess less x sorted) []).reverse

/-! ## The program -/

def SecondsToString (seconds : Int) : String :=
  let d := seconds.tdiv DAY
  let s := seconds.tmod DAY
  let h := s.tdiv HOUR
  let s := s.tmod HOUR
  let m := s.tdiv MINUTE
  let s := s.tmod MINUTE
  let result := ""
  let result := if d ≠ 0 then result ++ (fmtD d ++ "d ") else result
  let result := if h ≠ 0 ∨ result ≠ "" then result ++ (fmtD h ++ "h ") else result
  let result := if m ≠ 0 ∨ result ≠ "" then result ++ (fmtD m ++ "m ") else result
  result ++ (fmtD s ++ "s")

/-- Lines 104-122 of `handleUpdate`: the seconds contributed by one match `sV`. -/
def tokenSeconds (sV : List Char) : Int :=
  let seconds := Suffixes.foldl (fun seconds suffix =>
    if HasSuffix sV suffix.Suffix then
      match Atoi (TrimSuffix sV suffix.Suffix) with
      | none => 0
      | some s => wrap64 (s * suffix.Coef)
    else seconds) (0 : Int)
  if seconds = 0 then
    match Atoi sV with
    | none => 0
    | some s => wrap64 (s * MINUTE)
  else seconds

/-- Lines 102-125 of `handleUpdate`: the loop that adds up `result`. -/
def sumSeconds (params : List (List Char)) : Int :=
  params.foldl (fun result v => wrap64 (result + tokenSeconds v)) 0

/-- The expression `int64(v.delay) - (now - v.time)` of lines 81, 85 and 172. -/
def remaining (now : Int) (v : Alarm) : Int :=
  wrap64 (v.delay - wrap64 (now - v.time))

/-- The state the handler and the alarm goroutines share: the global `AlarmMap`; for each
channel, whether the `sendWithDelay` goroutine that owns it is still blocked in its
`select`; and the channel the next `make(chan int)` returns. -/
structure World where
  AlarmMap : Int → Option (List Alarm)
  waiting : Nat → Bool
  nextChan : Nat

/-- Lines 92-94 of `handleUpdate`: one send per stored alarm.  A send completes when the
goroutine of the alarm is still in its `select`, which then returns; otherwise the sender
is blocked for ever (`none`). -/
def sendAll : (Nat → Bool) → List Alarm → Option (Nat → Bool)
  | waiting, [] => some waiting
  | waiting, v :: vs =>
    if waiting v.ch then sendAll (Function.update waiting v.ch false) vs else none

/-- One line of the reply to "List" (line 85). -/
def listLine (now : Int) (v : Alarm) : String :=
  "\n" ++ SecondsToString ((remaining now v).tdiv NANO_SECOND) ++ " (" ++
    SecondsToString (v.delay.tdiv NANO_SECOND) ++ ")"

/-- The handler, for an update that carries a message.  The result is the world after the
handler and the text handed to `bot.Send`; `none` when the handler never gets there. -/
def handleUpdate (w : World) (chatId : Int) (text : String) (now : Int) :
    Option (World × String) :=
  if text = "List" then
    match w.AlarmMap chatId with
    | none => some (w, "List is empty")
    | some alarms =>
      if alarms.length = 0 then some (w, "List is empty")
      else
        let sorted := sortSlice (fun a b => decide (remaining now a < remaining now b)) alarms
        some ({ w with AlarmMap := Function.update w.AlarmMap chatId (some sorted) },
          sorted.foldl (fun responseMessage v => responseMessage ++ listLine now v) "List")
  else if text = "Clear all" then
    match w.AlarmMap chatId with
    | none => some (w, "Done")
    | some alarms =>
      match sendAll w.waiting alarms with
      | none => none
      | some waiting =>
        some ({ w with AlarmMap := Function.update w.AlarmMap chatId (some []),
                       waiting := waiting }, "Done")
  else
    let params := FindAll (ToLower text)
    if params.length > 0 then
      let result := sumSeconds params
      let ch := w.nextChan
      let alarms := (w.AlarmMap chatId).getD []
      some ({ AlarmMap := Function.update w.AlarmMap chatId
                (some (alarms ++ [⟨ch, now, wrap64 (result * NANO_SECOND)⟩])),
              waiting := Function.update w.waiting ch true,
              nextChan := ch + 1 }, SecondsToString result)
    else some (w, text)

def checkAlarmMap (AlarmMap : Int → Option (List Alarm)) (chatId : Int) (now : Int) :
    Int → Option (List Alarm) :=
  match AlarmMap chatId with
  | none => AlarmMap
  | some alarms =>
    Function.update AlarmMap chatId (some (alarms.filter (fun v => decide (0 ≤ remaining now v))))

/-- The `select` of `sendWithDelay` leaves by `case <-ch`: the goroutine returns and nothing
is sent. -/
def sendWithDelayCancelled (w : World) (ch : Nat) : World :=
  { w with waiting := Function.update w.waiting ch false }

/-- The `select` of `sendWithDelay` leaves by `case <-time.After(...)`: from here on nobody
receives on `ch`.  The goroutine goes on with `sendWithDelayFired`. -/
def sendWithDelayExpired (w : World) (ch : Nat) : World :=
  { w with waiting := Function.update w.waiting ch false }

/-- Lines 153-159 of `sendWithDelay`, the body of the deadline branch: the message "Alarm"
goes to the chat, then `checkAlarmMap` runs, at time `now`. -/
def sendWithDelayFired (w : World) (chatId : Int) (now : Int) : World × String :=
  ({ w with AlarmMap := checkAlarmMap w.AlarmMap chatId now }, "Alarm")

/-! ## Exact values, for comparison with the 64-bit computation -/

/-- The coefficient of a match whose digits are followed by the rune `u` inside the match
(`none`: the match is a bare number, which counts minutes). -/
def unitCoef : Option Char → Nat
  | none => 60
  | some u =>
    if u = 's' then 1 else if u = 'm' then 60 else if u = 'h' then 3600
    else if u = 'd' then 86400 else 0

/-- The exact number of seconds a match stands for: the value of its digits times the
coefficient of what follows them, in unbounded arithmetic. -/
def matchValue (sV : List Char) : Nat :=
  digitsValue (sV.takeWhile isDigit) * unitCoef (sV.dropWhile isDigit).head?

/-- The exact total of a message text: the sum of the exact values of its matches. -/
def exactTotal (text : String) : Nat :=
  ((FindAll (ToLower text)).map matchValue).sum

/-- The shape of a match of the handler's regular expression: a non-empty run of digits,
alone or followed by one unit letter. -/
def IsMatch (sV : List Char) : Prop :=
  ∃ ds : List Char, ds ≠ [] ∧ ds.all isDigit = true ∧
    (sV = ds ∨ ∃ u, isUnitLetter u = true ∧ sV = ds ++ [u])

/-- The text of a sequence of number-and-unit parts, each followed by a blank, as
`SecondsToString` writes them in front of the seconds. -/
def renderParts : List (Nat × Char) → List Char
  | [] => []
  | p :: ps => Nat.toDigits 10 p.1 ++ [p.2, ' '] ++ renderParts ps

/-- A world with no chat, no goroutine and no channel. -/
def emptyWorld : World := ⟨fun _ => none, fun _ => false, 0⟩

/-! ## The parser as the specification words it -/

/-- The left-to-right maximal matches of `\d+[smhd]?`, each as its digits and the unit
letter that follows them, if any. -/
def specScan : List Char → List Char → List (List Char × Option Char)
  | [], cur => if cur.isEmpty then [] else [(cur, none)]
  | c :: cs, cur =>
    if isDigit c then specScan cs (cur ++ [c])
    else if cur.isEmpty then specScan cs []
    else if c = 's' ∨ c = 'm' ∨ c = 'h' ∨ c = 'd' then (cur, some c) :: specScan cs []
    else (cur, none) :: specScan cs []

/-- The total of the specification: over the matches in the lower-cased text, the sum of
digit value times 1 for s, 60 for m, 3600 for h, 86400 for d, and 60 without a letter. -/
def specTotal (text : String) : Nat :=
  ((specScan (ToLower text).data []).map (fun p => digitsValue p.1 * unitCoef p.2)).sum

/-! ## Remaining time in exact arithmetic -/

/-- The remaining time of an alarm at time `now` as an exact integer,
delay - (now - time), with no 64-bit wraparound. -/
def exactRemaining (now : Int) (v : Alarm) : Int :=
  v.delay - (now - v.time)

/-- An exact integer lies in the range of a 64-bit int. -/
def fits64 (x : Int) : Bool :=
  decide (-9223372036854775808 ≤ x) && decide (x < 9223372036854775808)

/-- Neither subtraction of `int64(v.delay) - (now - v.time)` wraps around for the alarm
`v` at time `now`. -/
def noWrap (now : Int) (v : Alarm) : Bool :=
  fits64 (now - v.time) && fits64 (exactRemaining now v)

/-! ## The formatter -/

theorem tdiv_tmod_nonneg (n : Int) (hn : 0 ≤ n) :
    n.tdiv DAY = n / 86400 ∧ (n.tmod DAY).tdiv HOUR = n % 86400 / 3600 ∧
    ((n.tmod DAY).tmod HOUR).tdiv MINUTE = n % 3600 / 60 ∧
    ((n.tmod DAY).tmod HOUR).tmod MINUTE = n % 60 := by
  have h1 : n.tmod DAY = n % 86400 := Int.tmod_eq_emod hn (by decide)
  have h2 : 0 ≤ n % 86400 := Int.emod_nonneg _ (by decide)
  have h3 : (n % 86400).tmod HOUR = n % 3600 := by
    rw [Int.tmod_eq_emod h2 (by decide)]
    show n % 86400 % 3600 = n % 3600
    omega
  have h4 : 0 ≤ n % 3600 := Int.emod_nonneg _ (by decide)
  refine ⟨Int.tdiv_eq_ediv hn (by decide), ?_, ?_, ?_⟩
  · rw [h1, Int.tdiv_eq_ediv h2 (by decide)]; rfl
  · rw [h1, h3, Int.tdiv_eq_ediv h4 (by decide)]; rfl
  · rw [h1, h3, Int.tmod_eq_emod h4 (by decide)]
    show n % 3600 % 60 = n % 60
    omega

theorem append_ne_empty (a b : String) (hb : b ≠ "") : a ++ b ≠ "" := by
  intro h
  have h2 := congrArg String.data h
  rw [String.data_append] at h2
  have h3 : b.data = [] := (List.append_eq_nil.mp h2).2
  exact hb (String.ext h3)

theorem SecondsToString_eq (n : Int) (hn : 0 ≤ n) :
    SecondsToString n =
      if 0 < n / 86400 then
        fmtD (n / 86400) ++ "d " ++ fmtD (n % 86400 / 3600) ++ "h " ++
          fmtD (n % 3600 / 60) ++ "m " ++ fmtD (n % 60) ++ "s"
      else if 0 < n % 86400 / 3600 then
        fmtD (n % 86400 / 3600) ++ "h " ++ fmtD (n % 3600 / 60) ++ "m " ++ fmtD (n % 60) ++ "s"
      else if 0 < n % 3600 / 60 then
        fmtD (n % 3600 / 60) ++ "m " ++ fmtD (n % 60) ++ "s"
      else fmtD (n % 60) ++ "s" := by
  obtain ⟨e1, e2, e3, e4⟩ := tdiv_tmod_nonneg n hn
  have hd : 0 ≤ n / 86400 := Int.ediv_nonneg hn (by decide)
  have hh : 0 ≤ n % 86400 / 3600 := Int.ediv_nonneg (Int.emod_nonneg _ (by decide)) (by decide)
  have hm : 0 ≤ n % 3600 / 60 := Int.ediv_nonneg (Int.emod_nonneg _ (by decide)) (by decide)
  unfold SecondsToString
  simp only [e1, e2, e3, e4]
  by_cases c1 : 0 < n / 86400
  · have c1n : n / 86400 ≠ 0 := by omega
    simp only [c1, c1n, if_true, ne_eq, not_false_eq_true, String.empty_append,
      append_ne_empty _ "d " (by decide),
      append_ne_empty _ (_ ++ "h ") (append_ne_empty _ "h " (by decide)), or_true]
    simp only [String.append_assoc]
  · have c1z : n / 86400 = 0 := by omega
    by_cases c2 : 0 < n % 86400 / 3600
    · have c2n : n % 86400 / 3600 ≠ 0 := by omega
      simp only [c1z, c2, c2n, if_true, if_false, ne_eq, not_false_eq_true, String.empty_append,
        append_ne_empty _ "h " (by decide), or_true, true_or, not_true_eq_false,
        lt_self_iff_false]
      simp only [String.append_assoc]
    · have c2z : n % 86400 / 3600 = 0 := by omega
      by_cases c3 : 0 < n % 3600 / 60
      · have c3n : n % 3600 / 60 ≠ 0 := by omega
        simp only [c1z, c2z, c3, c3n, if_true, if_false, ne_eq, not_false_eq_true,
          String.empty_append, or_true, true_or, not_true_eq_false, lt_self_iff_false,
          or_self]
        simp only [String.append_assoc]
      · have c3z : n % 3600 / 60 = 0 := by omega
        simp only [c1z, c2z, c3z, if_false, ne_eq, not_true_eq_false, lt_self_iff_false,
          or_self, String.empty_append]

/-- C2. For every n ≥ 0, with d = n/86400, h = (n mod 86400)/3600, m = (n mod 3600)/60 and
s = n mod 60, and with (x) the decimal rendering of x, SecondsToString n is
"(d)d (h)h (m)m (s)s" when d > 0; "(h)h (m)m (s)s" when d = 0 and h > 0; "(m)m (s)s" when
d = h = 0 and m > 0; and "(s)s" otherwise. -/
theorem SecondsToString_format (n : Int) (hn : 0 ≤ n) :
    (0 < n / 86400 →
      SecondsToString n =
        fmtD (n / 86400) ++ "d " ++ fmtD (n % 86400 / 3600) ++ "h " ++
          fmtD (n % 3600 / 60) ++ "m " ++ fmtD (n % 60) ++ "s") ∧
    (n / 86400 = 0 → 0 < n % 86400 / 3600 →
      SecondsToString n =
        fmtD (n % 86400 / 3600) ++ "h " ++ fmtD (n % 3600 / 60) ++ "m " ++
          fmtD (n % 60) ++ "s") ∧
    (n / 86400 = 0 → n % 86400 / 3600 = 0 → 0 < n % 3600 / 60 →
      SecondsToString n = fmtD (n % 3600 / 60) ++ "m " ++ fmtD (n % 60) ++ "s") ∧
    (n / 86400 = 0 → n % 86400 / 3600 = 0 → n % 3600 / 60 = 0 →
      SecondsToString n = fmtD (n % 60) ++ "s") := by
  have heq := SecondsToString_eq n hn
  refine ⟨?_, ?_, ?_, ?_⟩
  · intro hd
    rw [heq, if_pos hd]
  · intro hd hh
    have hd0 : ¬ 0 < n / 86400 := by omega
    rw [heq, if_neg hd0, if_pos hh]
  · intro hd hh hm
    have hd0 : ¬ 0 < n / 86400 := by omega
    have hh0 : ¬ 0 < n % 86400 / 3600 := by omega
    rw [heq, if_neg hd0, if_neg hh0, if_pos hm]
  · intro hd hh hm
    have hd0 : ¬ 0 < n / 86400 := by omega
    have hh0 : ¬ 0 < n % 86400 / 3600 := by omega
    have hm0 : ¬ 0 < n % 3600 / 60 := by omega
    rw [heq, if_neg hd0, if_neg hh0, if_neg hm0]

theorem SecondsToString_samples :
    SecondsToString 90061 = "1d 1h 1m 1s" ∧ SecondsToString 59 = "59s" ∧
    SecondsToString 3600 = "1h 0m 0s" ∧ SecondsToString 0 = "0s" := by
  decide

theorem SecondsToString_format_witness :
    SecondsToString 90061 = "1d 1h 1m 1s" ∧ SecondsToString 3600 = "1h 0m 0s" ∧
    SecondsToString 59 = "59s" :=
  ⟨((SecondsToString_format 90061 (by decide)).1 (by decide)).trans (by decide),
   ((SecondsToString_format 3600 (by decide)).2.1 (by decide) (by decide)).trans (by decide),
   ((SecondsToString_format 59 (by decide)).2.2.2 (by decide) (by decide) (by decide)).trans
     (by decide)⟩

/-! ## Sorting and the reply to "List" -/

theorem insertLess_perm {α : Type} (less : α → α → Bool) (x : α) (l : List α) :
    (insertLess less x l).Perm (x :: l) := by
  induction l with
  | nil => exact List.Perm.refl _
  | cons y ys ih =>
    unfold insertLess
    split
    · exact (List.Perm.cons y ih).trans (List.Perm.swap x y ys)
    · exact List.Perm.refl _

theorem foldl_insertLess_perm {α : Type} (less : α → α → Bool) (l acc : List α) :
    (l.foldl (fun sorted x => insertLess less x sorted) acc).Perm (acc ++ l) := by
  induction l generalizing acc with
  | nil => simp
  | cons x xs ih =>
    simp only [List.foldl_cons]
    refine (ih _).trans ?_
    refine (List.Perm.append_right xs (insertLess_perm less x acc)).trans ?_
    have hmid : (acc ++ x :: xs).Perm (x :: (acc ++ xs)) := List.perm_middle
    simpa using hmid.symm

theorem sortSlice_perm {α : Type} (less : α → α → Bool) (l : List α) :
    (sortSlice less l).Perm l := by
  unfold sortSlice
  refine (List.reverse_perm _).trans ?_
  simpa using foldl_insertLess_perm less l []

theorem insertLess_mem {α : Type} (less : α → α → Bool) (x z : α) (l : List α)
    (hz : z ∈ insertLess less x l) : z = x ∨ z ∈ l := by
  have := (insertLess_perm less x l).mem_iff.mp hz
  simpa using this

theorem insertLess_sorted {α : Type} (key : α → Int) (x : α) (l : List α)
    (hl : l.Pairwise (fun a b => key b ≤ key a)) :
    (insertLess (fun a b => decide (key a < key b)) x l).Pairwise
      (fun a b => key b ≤ key a) := by
  induction l with
  | nil => simp [insertLess]
  | cons y ys ih =>
    rw [List.pairwise_cons] at hl
    unfold insertLess
    by_cases hxy : key x < key y
    · simp only [hxy, decide_True, if_true]
      rw [List.pairwise_cons]
      refine ⟨?_, ih hl.2⟩
      intro z hz
      rcases insertLess_mem _ x z ys hz with rfl | hz
      · omega
      · exact hl.1 z hz
    · simp only [hxy, decide_False, Bool.false_eq_true, if_false]
      rw [List.pairwise_cons, List.pairwise_cons]
      refine ⟨?_, hl⟩
      intro z hz
      rcases List.mem_cons.mp hz with rfl | hz
      · omega
      · have := hl.1 z hz
        omega

theorem sortSlice_sorted {α : Type} (key : α → Int) (l : List α) :
    (sortSlice (fun a b => decide (key a < key b)) l).Pairwise (fun a b => key a ≤ key b) := by
  unfold sortSlice
  rw [List.pairwise_reverse]
  have h : ∀ (xs acc : List α), acc.Pairwise (fun a b => key b ≤ key a) →
      (xs.foldl (fun sorted x => insertLess (fun a b => decide (key a < key b)) x sorted)
        acc).Pairwise (fun a b => key b ≤ key a) := by
    intro xs
    induction xs with
    | nil => intro acc hacc; simpa using hacc
    | cons x xs ih =>
      intro acc hacc
      simp only [List.foldl_cons]
      exact ih _ (insertLess_sorted key x acc hacc)
  exact h l [] List.Pairwise.nil

/-! ## Characters, digits and `Atoi` -/

theorem isDigit_iff (c : Char) : isDigit c = true ↔ 48 ≤ c.toNat ∧ c.toNat ≤ 57 := by
  simp [isDigit]

theorem isUnitLetter_not_digit (c : Char) (h : isUnitLetter c = true) : isDigit c = false := by
  simp only [isUnitLetter, Bool.or_eq_true, decide_eq_true_eq] at h
  rcases h with (((((((h | h) | h) | h) | h) | h) | h) | h) | h <;> subst h <;> decide

theorem toLower_eq_self (c : Char) (h : ¬ (65 ≤ c.toNat ∧ c.toNat ≤ 90)) : c.toLower = c := by
  unfold Char.toLower
  simp only [ge_iff_le]
  rw [if_neg h]

theorem isDigit_toLower (c : Char) : isDigit c.toLower = isDigit c := by
  by_cases h : 65 ≤ c.toNat ∧ c.toNat ≤ 90
  · obtain ⟨n, h1, h2, rfl⟩ : ∃ n, 65 ≤ n ∧ n ≤ 90 ∧ c = Char.ofNat n :=
      ⟨c.toNat, h.1, h.2, (Char.ofNat_toNat c).symm⟩
    interval_cases n <;> decide
  · rw [toLower_eq_self c h]

theorem digitsValue_append (ds : List Char) (c : Char) :
    digitsValue (ds ++ [c]) = 10 * digitsValue ds + (c.toNat - 48) := by
  simp [digitsValue, List.foldl_append]

theorem HasSuffix_concat (l : List Char) (u x : Char) :
    HasSuffix (l ++ [u]) (String.mk [x]) = decide (x = u) := by
  by_cases h : x = u <;> simp [HasSuffix, List.isSuffixOf, List.isPrefixOf, h]

theorem TrimSuffix_concat (l : List Char) (u : Char) :
    TrimSuffix (l ++ [u]) (String.mk [u]) = l := by
  simp [TrimSuffix, HasSuffix_concat, String.length]

theorem Atoi_digits (ds : List Char) (hne : ds ≠ []) (hall : ds.all isDigit = true) :
    Atoi ds = if digitsValue ds ≤ 9223372036854775807 then some (digitsValue ds : Int)
      else none := by
  cases ds with
  | nil => exact absurd rfl hne
  | cons c cs =>
    have hc : isDigit c = true := by
      simp only [List.all_cons, Bool.and_eq_true] at hall
      exact hall.1
    have h1 : c ≠ '-' := by rintro rfl; revert hc; decide
    have h2 : c ≠ '+' := by rintro rfl; revert hc; decide
    unfold Atoi
    simp only [List.head?_cons, Option.some.injEq, h1, h2, or_self, if_false, List.isEmpty_cons,
      hall, Bool.not_true, Bool.or_self, Bool.false_eq_true]
    have hnn : (0 : Int) ≤ (digitsValue (c :: cs) : Int) := Int.ofNat_nonneg _
    by_cases hle : digitsValue (c :: cs) ≤ 9223372036854775807
    · have : ¬ ((digitsValue (c :: cs) : Int) < -9223372036854775808 ∨
          9223372036854775807 < (digitsValue (c :: cs) : Int)) := by omega
      simp only [this, if_false, hle, if_true]
    · have : ((digitsValue (c :: cs) : Int) < -9223372036854775808 ∨
          9223372036854775807 < (digitsValue (c :: cs) : Int)) := by omega
      simp only [this, if_true, hle, if_false]

theorem Atoi_digits_concat (ds : List Char) (u : Char) (hne : ds ≠ [])
    (hall : ds.all isDigit = true) (hu : isDigit u = false) : Atoi (ds ++ [u]) = none := by
  cases ds with
  | nil => exact absurd rfl hne
  | cons c cs =>
    have hc : isDigit c = true := by
      simp only [List.all_cons, Bool.and_eq_true] at hall
      exact hall.1
    have h1 : c ≠ '-' := by rintro rfl; revert hc; decide
    have h2 : c ≠ '+' := by rintro rfl; revert hc; decide
    unfold Atoi
    simp [h1, h2, hu]


/-! ## The seconds of one match -/

theorem wrap64_eq_self (x : Int) (h1 : -9223372036854775808 ≤ x)
    (h2 : x < 9223372036854775808) : wrap64 x = x := by
  unfold wrap64
  omega

theorem takeWhile_digits (ds rest : List Char) (hall : ds.all isDigit = true)
    (hrest : ∀ c ∈ rest.head?, isDigit c = false) :
    (ds ++ rest).takeWhile isDigit = ds ∧ (ds ++ rest).dropWhile isDigit = rest := by
  induction ds with
  | nil =>
    cases rest with
    | nil => simp
    | cons c cs =>
      have := hrest c (by simp)
      simp [List.takeWhile, List.dropWhile, this]
  | cons d ds ih =>
    simp only [List.all_cons, Bool.and_eq_true] at hall
    have := ih hall.2
    simp [List.takeWhile, List.dropWhile, hall.1, this.1, this.2]

theorem matchValue_digits (ds : List Char) (hall : ds.all isDigit = true) :
    matchValue ds = digitsValue ds * 60 := by
  have h := takeWhile_digits ds [] hall (by simp)
  simp only [List.append_nil] at h
  simp [matchValue, h.1, h.2, unitCoef]

theorem matchValue_concat (ds : List Char) (u : Char) (hall : ds.all isDigit = true)
    (hu : isDigit u = false) :
    matchValue (ds ++ [u]) = digitsValue ds * unitCoef (some u) := by
  have h := takeWhile_digits ds [u] hall (by simpa using hu)
  simp [matchValue, h.1, h.2]

theorem ite_zero_self (x : Int) : (if x = 0 then 0 else x) = x := by
  split
  · next h => exact h.symm
  · rfl

theorem tokenSeconds_digits (ds : List Char) (hne : ds ≠ []) (hall : ds.all isDigit = true) :
    tokenSeconds ds = if digitsValue ds ≤ 9223372036854775807
      then wrap64 ((digitsValue ds : Int) * 60) else 0 := by
  obtain ⟨init, c, rfl⟩ : ∃ init c, ds = init ++ [c] :=
    ⟨ds.dropLast, ds.getLast hne, (List.dropLast_append_getLast hne).symm⟩
  have hc : isDigit c = true := by
    simp only [List.all_append, List.all_cons, List.all_nil, Bool.and_true,
      Bool.and_eq_true] at hall
    exact hall.2
  have hs : HasSuffix (init ++ [c]) "s" = false := by
    rw [show ("s" : String) = String.mk ['s'] from rfl, HasSuffix_concat]
    simp only [decide_eq_false_iff_not]; rintro rfl; revert hc; decide
  have hm : HasSuffix (init ++ [c]) "m" = false := by
    rw [show ("m" : String) = String.mk ['m'] from rfl, HasSuffix_concat]
    simp only [decide_eq_false_iff_not]; rintro rfl; revert hc; decide
  have hh : HasSuffix (init ++ [c]) "h" = false := by
    rw [show ("h" : String) = String.mk ['h'] from rfl, HasSuffix_concat]
    simp only [decide_eq_false_iff_not]; rintro rfl; revert hc; decide
  have hd : HasSuffix (init ++ [c]) "d" = false := by
    rw [show ("d" : String) = String.mk ['d'] from rfl, HasSuffix_concat]
    simp only [decide_eq_false_iff_not]; rintro rfl; revert hc; decide
  unfold tokenSeconds
  simp only [Suffixes, List.foldl_cons, List.foldl_nil, hs, hm, hh, hd, Bool.false_eq_true,
    if_false, if_true, Atoi_digits _ hne hall, MINUTE]
  by_cases hle : digitsValue (init ++ [c]) ≤ 9223372036854775807
  · simp only [hle, if_true]
  · simp only [hle, if_false]

theorem tokenSeconds_concat (ds : List Char) (u : Char) (hne : ds ≠ [])
    (hall : ds.all isDigit = true) (hu : isDigit u = false) :
    tokenSeconds (ds ++ [u]) = if digitsValue ds ≤ 9223372036854775807
      then wrap64 ((digitsValue ds : Int) * (unitCoef (some u) : Int)) else 0 := by
  have hs : HasSuffix (ds ++ [u]) "s" = decide ('s' = u) := HasSuffix_concat ds u 's'
  have hm : HasSuffix (ds ++ [u]) "m" = decide ('m' = u) := HasSuffix_concat ds u 'm'
  have hh : HasSuffix (ds ++ [u]) "h" = decide ('h' = u) := HasSuffix_concat ds u 'h'
  have hd : HasSuffix (ds ++ [u]) "d" = decide ('d' = u) := HasSuffix_concat ds u 'd'
  have ts : TrimSuffix (ds ++ ['s']) "s" = ds := TrimSuffix_concat ds 's'
  have tm : TrimSuffix (ds ++ ['m']) "m" = ds := TrimSuffix_concat ds 'm'
  have th : TrimSuffix (ds ++ ['h']) "h" = ds := TrimSuffix_concat ds 'h'
  have td : TrimSuffix (ds ++ ['d']) "d" = ds := TrimSuffix_concat ds 'd'
  have hw0 : wrap64 0 = 0 := by decide
  unfold tokenSeconds
  simp only [Suffixes, List.foldl_cons, List.foldl_nil, hs, hm, hh, hd,
    Atoi_digits_concat ds u hne hall hu, SECOND, MINUTE, HOUR, DAY]
  by_cases hle : digitsValue ds ≤ 9223372036854775807
  · by_cases c1 : u = 's'
    · subst c1
      simp [ts, Atoi_digits ds hne hall, unitCoef, hle, ite_zero_self]
    · by_cases c2 : u = 'm'
      · subst c2
        simp [tm, Atoi_digits ds hne hall, unitCoef, hle, ite_zero_self]
      · by_cases c3 : u = 'h'
        · subst c3
          simp [th, Atoi_digits ds hne hall, unitCoef, hle, ite_zero_self]
        · by_cases c4 : u = 'd'
          · subst c4
            simp [td, Atoi_digits ds hne hall, unitCoef, hle, ite_zero_self]
          · have e1 : ¬ 's' = u := fun h => c1 h.symm
            have e2 : ¬ 'm' = u := fun h => c2 h.symm
            have e3 : ¬ 'h' = u := fun h => c3 h.symm
            have e4 : ¬ 'd' = u := fun h => c4 h.symm
            simp [e1, e2, e3, e4, c1, c2, c3, c4, unitCoef, hw0]
  · by_cases c1 : u = 's'
    · subst c1
      simp [ts, Atoi_digits ds hne hall, hle]
    · by_cases c2 : u = 'm'
      · subst c2
        simp [tm, Atoi_digits ds hne hall, hle]
      · by_cases c3 : u = 'h'
        · subst c3
          simp [th, Atoi_digits ds hne hall, hle]
        · by_cases c4 : u = 'd'
          · subst c4
            simp [td, Atoi_digits ds hne hall, hle]
          · have e1 : ¬ 's' = u := fun h => c1 h.symm
            have e2 : ¬ 'm' = u := fun h => c2 h.symm
            have e3 : ¬ 'h' = u := fun h => c3 h.symm
            have e4 : ¬ 'd' = u := fun h => c4 h.symm
            simp [e1, e2, e3, e4, hle]

/-! ## The scanner -/

theorem scanMatches_eq_nil_iff (text cur : List Char) :
    scanMatches text cur = [] ↔ cur = [] ∧ ∀ c ∈ text, isDigit c = false := by
  induction text generalizing cur with
  | nil =>
    cases cur <;> simp [scanMatches]
  | cons c cs ih =>
    unfold scanMatches
    by_cases hc : isDigit c = true
    · simp only [hc, if_true, ih, List.append_eq_nil, List.cons_ne_nil, and_false, false_and,
        false_iff, not_and]
      intro _ hall
      have := hall c (List.mem_cons_self c cs)
      rw [hc] at this
      exact Bool.noConfusion this
    · have hc2 : isDigit c = false := by simpa using hc
      cases cur with
      | nil => simp [hc2, ih]
      | cons d ds => by_cases hu : isUnitLetter c = true <;> simp [hc2, hu]

theorem scanMatches_isMatch (text cur : List Char) (hcur : cur.all isDigit = true) :
    ∀ sV ∈ scanMatches text cur, IsMatch sV := by
  induction text generalizing cur with
  | nil =>
    intro sV hs
    cases cur with
    | nil => simp [scanMatches] at hs
    | cons d ds =>
      simp only [scanMatches, List.isEmpty_cons, Bool.false_eq_true, if_false,
        List.mem_singleton] at hs
      subst hs
      exact ⟨d :: ds, List.cons_ne_nil _ _, hcur, Or.inl rfl⟩
  | cons c cs ih =>
    intro sV hs
    unfold scanMatches at hs
    by_cases hc : isDigit c = true
    · simp only [hc, if_true] at hs
      exact ih (cur ++ [c]) (by simp [List.all_append, hcur, hc]) sV hs
    · have hc2 : isDigit c = false := by simpa using hc
      cases cur with
      | nil =>
        simp only [hc2, Bool.false_eq_true, if_false, List.isEmpty_nil, if_true] at hs
        exact ih [] (by simp) sV hs
      | cons d ds =>
        by_cases hu : isUnitLetter c = true
        · simp only [hc2, Bool.false_eq_true, if_false, List.isEmpty_cons, hu, if_true,
            List.mem_cons] at hs
          rcases hs with rfl | hs
          · exact ⟨d :: ds, List.cons_ne_nil _ _, hcur, Or.inr ⟨c, hu, rfl⟩⟩
          · exact ih [] (by simp) sV hs
        · simp only [hc2, Bool.false_eq_true, if_false, List.isEmpty_cons, hu,
            List.mem_cons] at hs
          rcases hs with rfl | hs
          · exact ⟨d :: ds, List.cons_ne_nil _ _, hcur, Or.inl rfl⟩
          · exact ih [] (by simp) sV hs

theorem FindAll_isMatch (text : String) : ∀ sV ∈ FindAll text, IsMatch sV :=
  scanMatches_isMatch text.data [] (by simp)

/-! ## The 64-bit total against the exact total -/

theorem tokenSeconds_eq_matchValue (sV : List Char) (hm : IsMatch sV)
    (hb : matchValue sV < 9223372036854775808) : tokenSeconds sV = (matchValue sV : Int) := by
  obtain ⟨ds, hne, hall, h | ⟨u, hu, h⟩⟩ := hm <;> subst sV
  · rw [tokenSeconds_digits ds hne hall]
    rw [matchValue_digits ds hall] at hb ⊢
    have hle : digitsValue ds ≤ 9223372036854775807 := by omega
    rw [if_pos hle, wrap64_eq_self]
    · push_cast; rfl
    · have : (0 : Int) ≤ (digitsValue ds : Int) := Int.ofNat_nonneg _
      omega
    · have : ((digitsValue ds * 60 : Nat) : Int) < 9223372036854775808 := by exact_mod_cast hb
      push_cast at this
      exact this
  · have hud := isUnitLetter_not_digit u hu
    rw [tokenSeconds_concat ds u hne hall hud]
    rw [matchValue_concat ds u hall hud] at hb ⊢
    by_cases hle : digitsValue ds ≤ 9223372036854775807
    · rw [if_pos hle, wrap64_eq_self]
      · push_cast; rfl
      · have : (0 : Int) ≤ ((digitsValue ds * unitCoef (some u) : Nat) : Int) :=
          Int.ofNat_nonneg _
        push_cast at this
        omega
      · have : ((digitsValue ds * unitCoef (some u) : Nat) : Int) < 9223372036854775808 := by
          exact_mod_cast hb
        push_cast at this
        exact this
    · rw [if_neg hle]
      have hz : unitCoef (some u) = 0 := by
        by_contra hnz
        have h1 : 1 ≤ unitCoef (some u) := Nat.pos_of_ne_zero hnz
        have h2 : digitsValue ds * 1 ≤ digitsValue ds * unitCoef (some u) :=
          Nat.mul_le_mul_left _ h1
        omega
      simp [hz]

theorem foldl_sumSeconds (params : List (List Char)) (acc : Nat)
    (hm : ∀ sV ∈ params, IsMatch sV)
    (hb : acc + (params.map matchValue).sum < 9223372036854775808) :
    params.foldl (fun result v => wrap64 (result + tokenSeconds v)) (acc : Int) =
      ((acc + (params.map matchValue).sum : Nat) : Int) := by
  induction params generalizing acc with
  | nil => simp
  | cons sV rest ih =>
    simp only [List.map_cons, List.sum_cons] at hb
    have h1 : tokenSeconds sV = (matchValue sV : Int) :=
      tokenSeconds_eq_matchValue sV (hm sV (List.mem_cons_self _ _)) (by omega)
    have h2 : wrap64 ((acc : Int) + tokenSeconds sV) = ((acc + matchValue sV : Nat) : Int) := by
      rw [h1, wrap64_eq_self] <;> push_cast <;> omega
    simp only [List.foldl_cons, h2, List.map_cons, List.sum_cons]
    rw [ih (acc + matchValue sV) (fun t ht => hm t (List.mem_cons_of_mem _ ht)) (by omega)]
    congr 1
    omega

theorem sumSeconds_eq_exact (params : List (List Char)) (hm : ∀ sV ∈ params, IsMatch sV)
    (hb : (params.map matchValue).sum < 9223372036854775808) :
    sumSeconds params = (((params.map matchValue).sum : Nat) : Int) := by
  have h := foldl_sumSeconds params 0 hm (by omega)
  simpa [sumSeconds] using h


theorem FindAll_ToLower_eq_nil_iff (text : String) :
    FindAll (ToLower text) = [] ↔ ∀ c ∈ text.data, isDigit c = false := by
  unfold FindAll ToLower
  rw [scanMatches_eq_nil_iff]
  simp [isDigit_toLower]

/-! ## Decimal rendering -/

theorem digitChar_spec (m : Nat) (hm : m < 10) :
    isDigit (Nat.digitChar m) = true ∧ (Nat.digitChar m).toNat - 48 = m := by
  interval_cases m <;> decide

theorem toDigitsCore_spec (fuel k : Nat) (acc : List Char) (h : k < fuel) :
    ∃ ds : List Char, Nat.toDigitsCore 10 fuel k acc = ds ++ acc ∧ ds ≠ [] ∧
      ds.all isDigit = true ∧ digitsValue ds = k := by
  induction fuel generalizing k acc with
  | zero => omega
  | succ fuel ih =>
    have hd := digitChar_spec (k % 10) (Nat.mod_lt _ (by decide))
    by_cases hk : k / 10 = 0
    · refine ⟨[Nat.digitChar (k % 10)], ?_, List.cons_ne_nil _ _, ?_, ?_⟩
      · simp [Nat.toDigitsCore, hk]
      · simp [hd.1]
      · have : digitsValue [Nat.digitChar (k % 10)] = (Nat.digitChar (k % 10)).toNat - 48 := by
          simp [digitsValue]
        rw [this, hd.2]
        omega
    · obtain ⟨ds, h1, _, h3, h4⟩ := ih (k / 10) (Nat.digitChar (k % 10) :: acc) (by omega)
      refine ⟨ds ++ [Nat.digitChar (k % 10)], ?_, ?_, ?_, ?_⟩
      · simp [Nat.toDigitsCore, hk, h1]
      · simp
      · simp [List.all_append, h3, hd.1]
      · rw [digitsValue_append, h4, hd.2]
        omega

theorem toDigits_spec (k : Nat) :
    Nat.toDigits 10 k ≠ [] ∧ (Nat.toDigits 10 k).all isDigit = true ∧
      digitsValue (Nat.toDigits 10 k) = k := by
  obtain ⟨ds, h1, h2, h3, h4⟩ := toDigitsCore_spec (k + 1) k [] (by omega)
  have : Nat.toDigits 10 k = ds := by simpa [Nat.toDigits] using h1
  rw [this]
  exact ⟨h2, h3, h4⟩

theorem fmtD_data (k : Nat) : (fmtD (k : Int)).data = Nat.toDigits 10 k := by
  have : ¬ ((k : Int) < 0) := by omega
  simp [fmtD, this]


/-! ## Scanning the formatter's output -/

theorem scanMatches_digits (ds rest cur : List Char) (hall : ds.all isDigit = true) :
    scanMatches (ds ++ rest) cur = scanMatches rest (cur ++ ds) := by
  induction ds generalizing cur with
  | nil => simp
  | cons d ds ih =>
    simp only [List.all_cons, Bool.and_eq_true] at hall
    rw [List.cons_append, scanMatches, if_pos hall.1, ih (cur ++ [d]) hall.2]
    simp

theorem map_toLower_digits (ds : List Char) (hall : ds.all isDigit = true) :
    ds.map Char.toLower = ds := by
  induction ds with
  | nil => rfl
  | cons d ds ih =>
    simp only [List.all_cons, Bool.and_eq_true] at hall
    have hd := (isDigit_iff d).mp hall.1
    rw [List.map_cons, ih hall.2, toLower_eq_self d (by omega)]

theorem scanMatches_part (ds rest : List Char) (u : Char) (hne : ds ≠ [])
    (hall : ds.all isDigit = true) (hu : isUnitLetter u = true) :
    scanMatches (ds ++ u :: rest) [] = (ds ++ [u]) :: scanMatches rest [] := by
  rw [scanMatches_digits ds _ [] hall]
  have hud := isUnitLetter_not_digit u hu
  cases ds with
  | nil => exact absurd rfl hne
  | cons d ds => simp [scanMatches, hud, hu]

theorem scanMatches_renderParts (parts : List (Nat × Char)) (tail : List Char)
    (hu : ∀ p ∈ parts, p.2 = 'd' ∨ p.2 = 'h' ∨ p.2 = 'm') :
    scanMatches ((renderParts parts ++ tail).map Char.toLower) [] =
      parts.map (fun p => Nat.toDigits 10 p.1 ++ [p.2]) ++
        scanMatches (tail.map Char.toLower) [] := by
  induction parts with
  | nil => simp [renderParts]
  | cons p ps ih =>
    obtain ⟨h1, h2, _⟩ := toDigits_spec p.1
    have hp := hu p (List.mem_cons_self _ _)
    have hlow : p.2.toLower = p.2 ∧ isUnitLetter p.2 = true := by
      rcases hp with h | h | h <;> rw [h] <;> decide
    have hsp : (' ' : Char).toLower = ' ' := by decide
    have hspd : isDigit ' ' = false := by decide
    simp only [renderParts, List.append_assoc, List.map_append, List.map_cons, List.map_nil,
      map_toLower_digits _ h2, hlow.1, hsp, List.cons_append, List.nil_append]
    rw [scanMatches_part _ _ _ h1 h2 hlow.2]
    have := ih (fun q hq => hu q (List.mem_cons_of_mem _ hq))
    simp only [List.map_append] at this
    simp [scanMatches, hspd, this]

theorem FindAll_renderParts (text : String) (parts : List (Nat × Char)) (s : Nat)
    (hu : ∀ p ∈ parts, p.2 = 'd' ∨ p.2 = 'h' ∨ p.2 = 'm')
    (htext : text.data = renderParts parts ++ (Nat.toDigits 10 s ++ ['s'])) :
    FindAll (ToLower text) =
      parts.map (fun p => Nat.toDigits 10 p.1 ++ [p.2]) ++ [Nat.toDigits 10 s ++ ['s']] := by
  obtain ⟨h1, h2, _⟩ := toDigits_spec s
  unfold FindAll ToLower
  simp only [htext]
  rw [scanMatches_renderParts parts _ hu]
  have hs : ('s' : Char).toLower = 's' := by decide
  simp only [List.map_append, List.map_cons, List.map_nil, map_toLower_digits _ h2, hs]
  rw [scanMatches_part _ _ _ h1 h2 (by decide)]
  simp [scanMatches]

theorem sumSeconds_renderParts (text : String) (parts : List (Nat × Char)) (s : Nat)
    (hu : ∀ p ∈ parts, p.2 = 'd' ∨ p.2 = 'h' ∨ p.2 = 'm')
    (htext : text.data = renderParts parts ++ (Nat.toDigits 10 s ++ ['s']))
    (hb : (parts.map (fun p => p.1 * unitCoef (some p.2))).sum + s < 9223372036854775808) :
    sumSeconds (FindAll (ToLower text)) =
      (((parts.map (fun p => p.1 * unitCoef (some p.2))).sum + s : Nat) : Int) := by
  have hval : ∀ (k : Nat) (u : Char), isUnitLetter u = true →
      IsMatch (Nat.toDigits 10 k ++ [u]) ∧
        matchValue (Nat.toDigits 10 k ++ [u]) = k * unitCoef (some u) := by
    intro k u hk
    obtain ⟨h1, h2, h3⟩ := toDigits_spec k
    refine ⟨⟨_, h1, h2, Or.inr ⟨u, hk, rfl⟩⟩, ?_⟩
    rw [matchValue_concat _ _ h2 (isUnitLetter_not_digit u hk), h3]
  have hunit : ∀ p ∈ parts, isUnitLetter p.2 = true := by
    intro p hp
    rcases hu p hp with h | h | h <;> rw [h] <;> decide
  have hsum : ((parts.map (fun p => Nat.toDigits 10 p.1 ++ [p.2]) ++
      [Nat.toDigits 10 s ++ ['s']]).map matchValue).sum =
      (parts.map (fun p => p.1 * unitCoef (some p.2))).sum + s := by
    have hs := (hval s 's' (by decide)).2
    have hparts : (parts.map (fun p => Nat.toDigits 10 p.1 ++ [p.2])).map matchValue =
        parts.map (fun p => p.1 * unitCoef (some p.2)) := by
      rw [List.map_map]
      apply List.map_congr_left
      intro p hp
      exact (hval p.1 p.2 (hunit p hp)).2
    rw [List.map_append, List.sum_append, hparts]
    simp [hs, unitCoef]
  rw [FindAll_renderParts text parts s hu htext]
  rw [sumSeconds_eq_exact _ _ (by rw [hsum]; exact hb), hsum]
  intro sV hsV
  rcases List.mem_append.mp hsV with h | h
  · obtain ⟨p, hp, rfl⟩ := List.mem_map.mp h
    exact (hval p.1 p.2 (hunit p hp)).1
  · rw [List.mem_singleton] at h
    subst h
    exact (hval s 's' (by decide)).1


/-! ## Formatting, then parsing -/

theorem SecondsToString_parts (k : Nat) :
    ∃ parts : List (Nat × Char), (∀ p ∈ parts, p.2 = 'd' ∨ p.2 = 'h' ∨ p.2 = 'm') ∧
      (SecondsToString (k : Int)).data =
        renderParts parts ++ (Nat.toDigits 10 (k % 60) ++ ['s']) ∧
      (parts.map (fun p => p.1 * unitCoef (some p.2))).sum + k % 60 = k := by
  have f1 : (fmtD ((k : Int) / 86400)).data = Nat.toDigits 10 (k / 86400) := by
    rw [show (k : Int) / 86400 = ((k / 86400 : Nat) : Int) by omega]
    exact fmtD_data _
  have f2 : (fmtD ((k : Int) % 86400 / 3600)).data = Nat.toDigits 10 (k % 86400 / 3600) := by
    rw [show (k : Int) % 86400 / 3600 = ((k % 86400 / 3600 : Nat) : Int) by omega]
    exact fmtD_data _
  have f3 : (fmtD ((k : Int) % 3600 / 60)).data = Nat.toDigits 10 (k % 3600 / 60) := by
    rw [show (k : Int) % 3600 / 60 = ((k % 3600 / 60 : Nat) : Int) by omega]
    exact fmtD_data _
  have f4 : (fmtD ((k : Int) % 60)).data = Nat.toDigits 10 (k % 60) := by
    rw [show (k : Int) % 60 = ((k % 60 : Nat) : Int) by omega]
    exact fmtD_data _
  have hd : ("d " : String).data = ['d', ' '] := rfl
  have hh : ("h " : String).data = ['h', ' '] := rfl
  have hm : ("m " : String).data = ['m', ' '] := rfl
  have hs : ("s" : String).data = ['s'] := rfl
  have cd : unitCoef (some 'd') = 86400 := by decide
  have ch : unitCoef (some 'h') = 3600 := by decide
  have cm : unitCoef (some 'm') = 60 := by decide
  rw [SecondsToString_eq (k : Int) (Int.ofNat_nonneg k)]
  by_cases c1 : 0 < k / 86400
  · have c1i : (0 : Int) < (k : Int) / 86400 := by omega
    refine ⟨[(k / 86400, 'd'), (k % 86400 / 3600, 'h'), (k % 3600 / 60, 'm')], ?_, ?_, ?_⟩
    · simp
    · simp only [if_pos c1i, String.data_append, f1, f2, f3, f4, renderParts, hd, hh, hm, hs,
        List.append_assoc, List.append_nil]
    · simp only [List.map_cons, List.map_nil, List.sum_cons, List.sum_nil, cd, ch, cm]
      omega
  · have c1i : ¬ (0 : Int) < (k : Int) / 86400 := by omega
    by_cases c2 : 0 < k % 86400 / 3600
    · have c2i : (0 : Int) < (k : Int) % 86400 / 3600 := by omega
      refine ⟨[(k % 86400 / 3600, 'h'), (k % 3600 / 60, 'm')], ?_, ?_, ?_⟩
      · simp
      · simp only [if_neg c1i, if_pos c2i, String.data_append, f2, f3, f4, renderParts, hh,
          hm, hs, List.append_assoc, List.append_nil]
      · simp only [List.map_cons, List.map_nil, List.sum_cons, List.sum_nil, ch, cm]
        omega
    · have c2i : ¬ (0 : Int) < (k : Int) % 86400 / 3600 := by omega
      by_cases c3 : 0 < k % 3600 / 60
      · have c3i : (0 : Int) < (k : Int) % 3600 / 60 := by omega
        refine ⟨[(k % 3600 / 60, 'm')], ?_, ?_, ?_⟩
        · simp
        · simp only [if_neg c1i, if_neg c2i, if_pos c3i, String.data_append, f3, f4,
            renderParts, hm, hs, List.append_assoc, List.append_nil]
        · simp only [List.map_cons, List.map_nil, List.sum_cons, List.sum_nil, cm]
          omega
      · have c3i : ¬ (0 : Int) < (k : Int) % 3600 / 60 := by omega
        refine ⟨[], ?_, ?_, ?_⟩
        · simp
        · simp only [if_neg c1i, if_neg c2i, if_neg c3i, String.data_append, f4, renderParts,
            hs, List.nil_append]
        · simp only [List.map_nil, List.sum_nil]
          omega

/-- C10. For every n with 0 ≤ n < 2^63, the handler's parser applied to SecondsToString n
finds at least one match and its total is exactly n. -/
theorem parse_SecondsToString (n : Int) (h0 : 0 ≤ n) (h1 : n < 9223372036854775808) :
    (FindAll (ToLower (SecondsToString n))).length > 0 ∧
      sumSeconds (FindAll (ToLower (SecondsToString n))) = n := by
  obtain ⟨k, rfl⟩ : ∃ k : Nat, n = (k : Int) := ⟨n.toNat, (Int.toNat_of_nonneg h0).symm⟩
  obtain ⟨parts, hu, hdata, hsum⟩ := SecondsToString_parts k
  have hk : k < 9223372036854775808 := by exact_mod_cast h1
  constructor
  · rw [FindAll_renderParts _ parts (k % 60) hu hdata]
    simp
  · rw [sumSeconds_renderParts _ parts (k % 60) hu hdata (by omega), hsum]

theorem parse_SecondsToString_witness :
    (FindAll (ToLower (SecondsToString 3600))).length > 0 ∧
      sumSeconds (FindAll (ToLower (SecondsToString 3600))) = 3600 :=
  parse_SecondsToString 3600 (by decide) (by decide)


/-! ## Handler equations -/

theorem handleUpdate_List (w : World) (chatId now : Int) (alarms : List Alarm)
    (hstored : w.AlarmMap chatId = some alarms) (hne : alarms ≠ []) :
    handleUpdate w chatId "List" now =
      some (⟨Function.update w.AlarmMap chatId
          (some (sortSlice (fun a b => decide (remaining now a < remaining now b)) alarms)),
          w.waiting, w.nextChan⟩,
        ((sortSlice (fun a b => decide (remaining now a < remaining now b)) alarms).map
          (listLine now)).foldl (fun msg line => msg ++ line) "List") := by
  have hlen : alarms.length ≠ 0 := by
    intro h
    exact hne (List.length_eq_zero.mp h)
  unfold handleUpdate
  simp only [if_true, hstored, hlen, if_false, List.foldl_map]

theorem handleUpdate_List_empty (w : World) (chatId now : Int)
    (hstored : (w.AlarmMap chatId).getD [] = []) :
    handleUpdate w chatId "List" now = some (w, "List is empty") := by
  unfold handleUpdate
  cases h : w.AlarmMap chatId with
  | none => simp
  | some alarms =>
    rw [h] at hstored
    simp only [Option.getD_some] at hstored
    simp [hstored]

theorem handleUpdate_schedule (w : World) (chatId now : Int) (text : String)
    (hList : text ≠ "List") (hClear : text ≠ "Clear all")
    (hdigit : ∃ c ∈ text.data, isDigit c = true) :
    handleUpdate w chatId text now =
      some (⟨Function.update w.AlarmMap chatId
          (some ((w.AlarmMap chatId).getD [] ++
            [⟨w.nextChan, now, wrap64 (sumSeconds (FindAll (ToLower text)) * NANO_SECOND)⟩])),
          Function.update w.waiting w.nextChan true, w.nextChan + 1⟩,
        SecondsToString (sumSeconds (FindAll (ToLower text)))) := by
  obtain ⟨c, hc, hd⟩ := hdigit
  have hne : FindAll (ToLower text) ≠ [] := by
    intro hnil
    have := (FindAll_ToLower_eq_nil_iff text).mp hnil c hc
    rw [hd] at this
    exact Bool.noConfusion this
  have hlen : (FindAll (ToLower text)).length > 0 := List.length_pos.mpr hne
  unfold handleUpdate
  simp only [hList, hClear, if_false, hlen, if_true]

theorem handleUpdate_echo (w : World) (chatId now : Int) (text : String)
    (hList : text ≠ "List") (hClear : text ≠ "Clear all")
    (hnone : ∀ c ∈ text.data, isDigit c = false) :
    handleUpdate w chatId text now = some (w, text) := by
  have hnil := (FindAll_ToLower_eq_nil_iff text).mpr hnone
  unfold handleUpdate
  simp [hList, hClear, hnil]

/-! ## The claims about the handler -/

theorem remaining_eq_exact (now : Int) (v : Alarm) (h : noWrap now v = true) :
    remaining now v = exactRemaining now v := by
  simp only [noWrap, fits64, exactRemaining, Bool.and_eq_true, decide_eq_true_eq] at h
  unfold remaining exactRemaining
  rw [wrap64_eq_self _ h.1.1 h.1.2, wrap64_eq_self _ h.2.1 h.2.2]

theorem sortSlice_keys_unique {α : Type} (key : α → Int) (l entries : List α)
    (hperm : entries.Perm l) (hsorted : entries.Pairwise (fun a b => key a ≤ key b)) :
    entries.map key = (sortSlice (fun a b => decide (key a < key b)) l).map key := by
  have h1 : (entries.map key).Perm ((sortSlice (fun a b => decide (key a < key b)) l).map key) :=
    (hperm.trans (sortSlice_perm _ l).symm).map key
  have h2 : (entries.map key).Sorted (fun x y => x ≤ y) :=
    List.pairwise_map.mpr hsorted
  have h3 : ((sortSlice (fun a b => decide (key a < key b)) l).map key).Sorted
      (fun x y => x ≤ y) :=
    List.pairwise_map.mpr (sortSlice_sorted key l)
  exact List.eq_of_perm_of_sorted h1 h2 h3

/-- C3, as the code has it. For a chat with a non-empty stored sequence and a reading time
now at which, for every stored alarm, neither now - time nor delay - (now - time) leaves
the 64-bit range, the reply to "List" is the word "List" followed by one line per entry,
where the entries are a permutation of the stored alarms (each exactly once) in
non-decreasing order of the exact remaining time delay - (now - time), soonest first. -/
theorem list_sorted_perm (w : World) (chatId now : Int) (alarms : List Alarm)
    (hstored : w.AlarmMap chatId = some alarms) (hne : alarms ≠ [])
    (hrange : ∀ v ∈ alarms, noWrap now v = true) :
    ∃ entries : List Alarm,
      handleUpdate w chatId "List" now =
        some (⟨Function.update w.AlarmMap chatId (some entries), w.waiting, w.nextChan⟩,
          (entries.map (listLine now)).foldl (fun msg line => msg ++ line) "List") ∧
      entries.Perm alarms ∧
      entries.Pairwise (fun a b => exactRemaining now a ≤ exactRemaining now b) := by
  have hperm := sortSlice_perm (fun a b => decide (remaining now a < remaining now b)) alarms
  refine ⟨sortSlice (fun a b => decide (remaining now a < remaining now b)) alarms, ?_,
    hperm, ?_⟩
  · have hlen : alarms.length ≠ 0 := by
      intro h
      exact hne (List.length_eq_zero.mp h)
    unfold handleUpdate
    simp only [if_true, hstored, hlen, if_false, List.foldl_map]
  · refine List.Pairwise.imp_of_mem ?_ (sortSlice_sorted (remaining now) alarms)
    intro a b ha hb hab
    rw [← remaining_eq_exact now a (hrange a (hperm.mem_iff.mp ha)),
      ← remaining_eq_exact now b (hrange b (hperm.mem_iff.mp hb))]
    exact hab

theorem list_samples :
    (handleUpdate ⟨fun _ => some [⟨0, 0, 120000000000⟩, ⟨1, 0, 60000000000⟩], fun _ => true, 2⟩
        7 "List" 1000000000).map Prod.snd = some "List\n59s (1m 0s)\n1m 59s (2m 0s)" ∧
    (handleUpdate emptyWorld 7 "List" 0).map Prod.snd = some "List is empty" := by
  decide

theorem list_sorted_perm_witness :
    ∃ entries : List Alarm,
      handleUpdate ⟨fun _ => some [⟨0, 0, 120000000000⟩, ⟨1, 0, 60000000000⟩], fun _ => true, 2⟩
          7 "List" 1000000000 =
        some (⟨Function.update (fun _ => some [⟨0, 0, 120000000000⟩, ⟨1, 0, 60000000000⟩]) 7
            (some entries), fun _ => true, 2⟩,
          (entries.map (listLine 1000000000)).foldl (fun msg line => msg ++ line) "List") ∧
      entries.Perm [⟨0, 0, 120000000000⟩, ⟨1, 0, 60000000000⟩] ∧
      entries.Pairwise
        (fun a b => exactRemaining 1000000000 a ≤ exactRemaining 1000000000 b) :=
  list_sorted_perm ⟨fun _ => some [⟨0, 0, 120000000000⟩, ⟨1, 0, 60000000000⟩], fun _ => true, 2⟩
    7 1000000000 [⟨0, 0, 120000000000⟩, ⟨1, 0, 60000000000⟩] rfl (by decide) (by decide)

/-- C3 as stated fails. Chat 7 sends "9223372037s" at time 0: the stored delay wraps to
-9223372036709551616, the alarm fires at once and the pruning 0.2 s later keeps it. The
chat sends "1m" at 0.3 s and "List" at 0.5 s. The exact remaining time of the first alarm
is far below that of the second, yet line 81 computes for it a value that has wrapped to
+9223372036500000000, and the reply lists the second alarm first. -/
theorem list_order_wraps :
    (handleUpdate emptyWorld 7 "9223372037s" 0).bind (fun r1 =>
      (handleUpdate (sendWithDelayFired (sendWithDelayExpired r1.1 0) 7 200000000).1
        7 "1m" 300000000).bind (fun r2 =>
          (handleUpdate r2.1 7 "List" 500000000).map (fun r3 => (r3.1.AlarmMap 7, r3.2)))) =
      some (some [⟨1, 300000000, 60000000000⟩, ⟨0, 0, -9223372036709551616⟩],
        "List\n59s (1m 0s)\n106751d 23h 47m 16s (-106751d -23h -47m -16s)") ∧
    exactRemaining 500000000 ⟨0, 0, -9223372036709551616⟩ <
      exactRemaining 500000000 ⟨1, 300000000, 60000000000⟩ ∧
    remaining 500000000 ⟨0, 0, -9223372036709551616⟩ = 9223372036500000000 := by
  decide

/-- C8. For every message text other than "List" and "Clear all": when the text has no
ASCII digit the reply is the text itself and the world is unchanged; when it has at least
one digit, an alarm with the handler's total is appended to the chat's sequence and the
reply is SecondsToString of that total. -/
theorem echo_iff_no_digit (w : World) (chatId now : Int) (text : String)
    (hList : text ≠ "List") (hClear : text ≠ "Clear all") :
    ((∀ c ∈ text.data, isDigit c = false) →
      handleUpdate w chatId text now = some (w, text)) ∧
    ((∃ c ∈ text.data, isDigit c = true) →
      handleUpdate w chatId text now =
        some (⟨Function.update w.AlarmMap chatId
            (some ((w.AlarmMap chatId).getD [] ++
              [⟨w.nextChan, now, wrap64 (sumSeconds (FindAll (ToLower text)) * NANO_SECOND)⟩])),
            Function.update w.waiting w.nextChan true, w.nextChan + 1⟩,
          SecondsToString (sumSeconds (FindAll (ToLower text))))) := by
  constructor
  · intro hnone
    have hnil : FindAll (ToLower text) = [] := by
      unfold FindAll ToLower
      rw [scanMatches_eq_nil_iff]
      simpa [isDigit_toLower] using hnone
    unfold handleUpdate
    simp [hList, hClear, hnil]
  · rintro ⟨c, hc, hd⟩
    have hne : FindAll (ToLower text) ≠ [] := by
      intro hnil
      unfold FindAll ToLower at hnil
      rw [scanMatches_eq_nil_iff] at hnil
      have := hnil.2 c.toLower (List.mem_map_of_mem _ hc)
      rw [isDigit_toLower, hd] at this
      exact Bool.noConfusion this
    have hlen : (FindAll (ToLower text)).length > 0 := List.length_pos.mpr hne
    unfold handleUpdate
    simp only [hList, hClear, if_false, hlen, if_true]

theorem echo_iff_no_digit_witness :
    handleUpdate emptyWorld 7 "hello" 5 = some (emptyWorld, "hello") ∧
    handleUpdate emptyWorld 7 "0" 5 =
      some (⟨Function.update emptyWorld.AlarmMap 7 (some [⟨0, 5, 0⟩]),
        Function.update emptyWorld.waiting 0 true, 1⟩, "0s") :=
  ⟨(echo_iff_no_digit emptyWorld 7 5 "hello" (by decide) (by decide)).1 (by decide),
   ((echo_iff_no_digit emptyWorld 7 5 "0" (by decide) (by decide)).2
      ⟨'0', by decide, by decide⟩).trans rfl⟩



/-! ## Pruning on the firing path -/

theorem checkAlarmMap_stored (m : Int → Option (List Alarm)) (chatId now : Int)
    (alarms : List Alarm) (hstored : m chatId = some alarms) :
    checkAlarmMap m chatId now chatId =
      some (alarms.filter (fun v => decide (0 ≤ remaining now v))) := by
  unfold checkAlarmMap
  simp [hstored]

theorem checkAlarmMap_other (m : Int → Option (List Alarm)) (chatId now c : Int)
    (hc : c ≠ chatId) : checkAlarmMap m chatId now c = m c := by
  unfold checkAlarmMap
  cases h : m chatId with
  | none => rfl
  | some alarms => simp [Function.update, hc]

theorem length_filter_add_countP (now : Int) (alarms : List Alarm) :
    (alarms.filter (fun v => decide (0 ≤ remaining now v))).length +
      alarms.countP (fun v => decide (remaining now v < 0)) = alarms.length := by
  induction alarms with
  | nil => rfl
  | cons a as ih =>
    by_cases h : 0 ≤ remaining now a
    · have h2 : ¬ remaining now a < 0 := by omega
      simp only [List.filter_cons, h, decide_True, if_true, List.length_cons, List.countP_cons,
        h2, decide_False, Bool.false_eq_true, if_false]
      omega
    · have h2 : remaining now a < 0 := by omega
      simp only [List.filter_cons, h, decide_False, Bool.false_eq_true, if_false,
        List.length_cons, List.countP_cons, h2, decide_True, if_true]
      omega

theorem filter_remaining_eq_exact (now : Int) (alarms : List Alarm)
    (hrange : ∀ v ∈ alarms, noWrap now v = true) :
    alarms.filter (fun v => decide (0 ≤ remaining now v)) =
      alarms.filter (fun v => decide (0 ≤ exactRemaining now v)) := by
  apply List.filter_congr
  intro v hv
  rw [remaining_eq_exact now v (hrange v hv)]

theorem countP_remaining_eq_exact (now : Int) (alarms : List Alarm)
    (hrange : ∀ v ∈ alarms, noWrap now v = true) :
    alarms.countP (fun v => decide (remaining now v < 0)) =
      alarms.countP (fun v => decide (exactRemaining now v < 0)) := by
  apply List.countP_congr
  intro v hv
  rw [remaining_eq_exact now v (hrange v hv)]

/-- C6, as the code has it. Take a chat sequence and a time now at which, for every stored
alarm, neither now - time nor delay - (now - time) leaves the 64-bit range. After the
firing path (the message "Alarm", then checkAlarmMap at time now) the chat's stored
sequence is exactly the stored alarms whose exact remaining time delay - (now - time) is
not negative, in their stored order. An alarm with negative remaining time, such as the
fired timer when its deadline lies before now, is gone, and so is absent from what a
subsequent "List" presents; the length has decreased by the number of alarms with negative
remaining time, which is at least one when the fired timer is among them; other chats keep
their sequences. -/
theorem firing_prunes_expired (w : World) (chatId now : Int) (alarms : List Alarm)
    (hstored : w.AlarmMap chatId = some alarms)
    (hrange : ∀ v ∈ alarms, noWrap now v = true) :
    (sendWithDelayFired w chatId now).2 = "Alarm" ∧
    (sendWithDelayFired w chatId now).1.AlarmMap chatId =
      some (alarms.filter (fun v => decide (0 ≤ exactRemaining now v))) ∧
    (∀ a ∈ alarms, exactRemaining now a < 0 →
      a ∉ alarms.filter (fun v => decide (0 ≤ exactRemaining now v)) ∧
      (alarms.filter (fun v => decide (0 ≤ exactRemaining now v))).length + 1 ≤
        alarms.length) ∧
    (alarms.filter (fun v => decide (0 ≤ exactRemaining now v))).length +
      alarms.countP (fun v => decide (exactRemaining now v < 0)) = alarms.length ∧
    (∀ c, c ≠ chatId → (sendWithDelayFired w chatId now).1.AlarmMap c = w.AlarmMap c) ∧
    (∀ later : Int, ∃ entries : List Alarm,
      entries.Perm (alarms.filter (fun v => decide (0 ≤ exactRemaining now v))) ∧
      ((handleUpdate (sendWithDelayFired w chatId now).1 chatId "List" later).map Prod.snd =
          some ((entries.map (listLine later)).foldl (fun msg line => msg ++ line) "List") ∨
        (entries = [] ∧
          (handleUpdate (sendWithDelayFired w chatId now).1 chatId "List" later).map Prod.snd =
            some "List is empty"))) := by
  have hkept : (sendWithDelayFired w chatId now).1.AlarmMap chatId =
      some (alarms.filter (fun v => decide (0 ≤ exactRemaining now v))) := by
    rw [← filter_remaining_eq_exact now alarms hrange]
    exact checkAlarmMap_stored w.AlarmMap chatId now alarms hstored
  have hlen : (alarms.filter (fun v => decide (0 ≤ exactRemaining now v))).length +
      alarms.countP (fun v => decide (exactRemaining now v < 0)) = alarms.length := by
    rw [← filter_remaining_eq_exact now alarms hrange,
      ← countP_remaining_eq_exact now alarms hrange]
    exact length_filter_add_countP now alarms
  refine ⟨rfl, hkept, ?_, hlen, ?_, ?_⟩
  · intro a ha hneg
    refine ⟨?_, ?_⟩
    · intro hmem
      have := (List.mem_filter.mp hmem).2
      simp only [decide_eq_true_eq] at this
      omega
    · have hpos : 0 < alarms.countP (fun v => decide (exactRemaining now v < 0)) :=
        List.countP_pos_iff.mpr ⟨a, ha, by simpa using hneg⟩
      omega
  · intro c hc
    exact checkAlarmMap_other w.AlarmMap chatId now c hc
  · intro later
    by_cases hne : alarms.filter (fun v => decide (0 ≤ exactRemaining now v)) = []
    · refine ⟨[], by rw [hne], Or.inr ⟨rfl, ?_⟩⟩
      rw [handleUpdate_List_empty]
      · rfl
      · rw [hkept, hne]
        rfl
    · refine ⟨sortSlice (fun a b => decide (remaining later a < remaining later b))
        (alarms.filter (fun v => decide (0 ≤ exactRemaining now v))), sortSlice_perm _ _,
        Or.inl ?_⟩
      rw [handleUpdate_List _ chatId later _ hkept hne]
      rfl

theorem firing_prunes_expired_witness :
    (sendWithDelayFired ⟨fun _ => some [⟨0, 0, 1000000000⟩, ⟨1, 0, 60000000000⟩],
        fun _ => true, 2⟩ 7 1050000000).1.AlarmMap 7 = some [⟨1, 0, 60000000000⟩] :=
  ((firing_prunes_expired ⟨fun _ => some [⟨0, 0, 1000000000⟩, ⟨1, 0, 60000000000⟩],
      fun _ => true, 2⟩ 7 1050000000 [⟨0, 0, 1000000000⟩, ⟨1, 0, 60000000000⟩] rfl
      (by decide)).2.1).trans (by decide)

/-- C6 as stated fails. Two alarms of one second, stored 10 ms apart, have both passed
their deadline when the first one's firing path prunes 50 ms after its deadline: the
fired alarm is in the stored sequence with negative remaining time, and the sequence
shrinks from two entries to none, not by exactly one. -/
theorem firing_prunes_two :
    (⟨0, 0, 1000000000⟩ : Alarm) ∈ [(⟨0, 0, 1000000000⟩ : Alarm), ⟨1, 10000000, 1000000000⟩] ∧
    remaining 1050000000 ⟨0, 0, 1000000000⟩ < 0 ∧
    exactRemaining 1050000000 ⟨0, 0, 1000000000⟩ < 0 ∧
    ((sendWithDelayFired ⟨fun _ => some [⟨0, 0, 1000000000⟩, ⟨1, 10000000, 1000000000⟩],
        fun _ => true, 2⟩ 7 1050000000).1.AlarmMap 7).map List.length = some 0 := by
  decide


/-! ## Totals without overflow -/

theorem sumSeconds_eq_exactTotal (text : String)
    (hb : exactTotal text < 9223372036854775808) :
    sumSeconds (FindAll (ToLower text)) = (exactTotal text : Int) :=
  sumSeconds_eq_exact _ (FindAll_isMatch _) hb

theorem lowered_unit_letter (c : Char) (hlong : c ≠ Char.ofNat 383)
    (hu : isUnitLetter c.toLower = true) :
    c.toLower = 's' ∨ c.toLower = 'm' ∨ c.toLower = 'h' ∨ c.toLower = 'd' := by
  by_cases h : 65 ≤ c.toNat ∧ c.toNat ≤ 90
  · obtain ⟨n, h1, h2, rfl⟩ : ∃ n, 65 ≤ n ∧ n ≤ 90 ∧ c = Char.ofNat n :=
      ⟨c.toNat, h.1, h.2, (Char.ofNat_toNat c).symm⟩
    clear h hlong
    revert hu
    interval_cases n <;> decide
  · rw [toLower_eq_self c h] at hu ⊢
    simp only [isUnitLetter, Bool.or_eq_true, decide_eq_true_eq] at hu
    rcases hu with (((((((hu | hu) | hu) | hu) | hu) | hu) | hu) | hu) | hu
    · exact Or.inl hu
    · subst hu; exact absurd (by decide) h
    · exact absurd hu hlong
    · exact Or.inr (Or.inl hu)
    · subst hu; exact absurd (by decide) h
    · exact Or.inr (Or.inr (Or.inl hu))
    · subst hu; exact absurd (by decide) h
    · exact Or.inr (Or.inr (Or.inr hu))
    · subst hu; exact absurd (by decide) h

theorem scanMatches_value_eq_specScan (l cur : List Char)
    (hl : ∀ c ∈ l, isUnitLetter c = true → c = 's' ∨ c = 'm' ∨ c = 'h' ∨ c = 'd')
    (hcur : cur.all isDigit = true) :
    (scanMatches l cur).map matchValue =
      (specScan l cur).map (fun p => digitsValue p.1 * unitCoef p.2) := by
  induction l generalizing cur with
  | nil =>
    cases cur with
    | nil => simp [scanMatches, specScan]
    | cons d ds => simp [scanMatches, specScan, matchValue_digits _ hcur, unitCoef]
  | cons c cs ih =>
    have hcs : ∀ x ∈ cs, isUnitLetter x = true → x = 's' ∨ x = 'm' ∨ x = 'h' ∨ x = 'd' :=
      fun x hx => hl x (List.mem_cons_of_mem _ hx)
    by_cases hc : isDigit c = true
    · rw [scanMatches, specScan, if_pos hc, if_pos hc]
      exact ih (cur ++ [c]) hcs (by simp [List.all_append, hcur, hc])
    · have hc2 : isDigit c = false := by simpa using hc
      cases cur with
      | nil =>
        rw [scanMatches, specScan, if_neg hc, if_neg hc]
        simpa using ih [] hcs (by simp)
      | cons d ds =>
        have hrest := ih [] hcs (by simp)
        by_cases hu : isUnitLetter c = true
        · have hspec := hl c (List.mem_cons_self _ _) hu
          rw [scanMatches, specScan, if_neg hc, if_neg hc]
          simp only [List.isEmpty_cons, Bool.false_eq_true, if_false, hu, if_true, hspec,
            List.map_cons, hrest, matchValue_concat _ c hcur hc2]
        · have hspec : ¬ (c = 's' ∨ c = 'm' ∨ c = 'h' ∨ c = 'd') := by
            intro h
            apply hu
            rcases h with h | h | h | h <;> subst h <;> decide
          rw [scanMatches, specScan, if_neg hc, if_neg hc]
          simp only [List.isEmpty_cons, Bool.false_eq_true, if_false, hu, hspec,
            List.map_cons, hrest, matchValue_digits _ hcur, unitCoef]

theorem exactTotal_eq_specTotal (text : String) (hlong : ∀ c ∈ text.data, c ≠ Char.ofNat 383) :
    exactTotal text = specTotal text := by
  unfold exactTotal specTotal FindAll
  rw [scanMatches_value_eq_specScan _ [] _ (by simp)]
  intro c hc hu
  simp only [ToLower, List.mem_map] at hc
  obtain ⟨c0, hc0, rfl⟩ := hc
  exact lowered_unit_letter c0 (hlong c0 hc0) hu

/-- The parser against its specification, away from U+017F: for a text without a long s
whose specified total is below 2^63, the handler's total is the specified one. -/
theorem sumSeconds_eq_specTotal (text : String)
    (hlong : ∀ c ∈ text.data, c ≠ Char.ofNat 383)
    (hb : specTotal text < 9223372036854775808) :
    sumSeconds (FindAll (ToLower text)) = (specTotal text : Int) := by
  rw [← exactTotal_eq_specTotal text hlong] at hb ⊢
  exact sumSeconds_eq_exactTotal text hb

theorem sumSeconds_eq_specTotal_samples :
    sumSeconds (FindAll (ToLower "1h 30")) = 5400 ∧
    sumSeconds (FindAll (ToLower "90s")) = 90 ∧
    sumSeconds (FindAll (ToLower "45")) = 2700 ∧
    sumSeconds (FindAll (ToLower "10x")) = 600 ∧
    sumSeconds (FindAll (ToLower "1H")) = 3600 ∧
    specTotal "1h 30" = 5400 := by
  decide

/-- C9, as the code has it. For every message text that schedules a timer and whose exact
total (over the matches, digit value times coefficient, in unbounded arithmetic) is at most
9223372036, the handler's total equals the exact total, the stored delay is the total
times 1000000000, both are ≥ 0, and the stored delay divided by 1000000000 is the total
replied to the user. -/
theorem delay_nonneg_of_exactTotal (w : World) (chatId now : Int) (text : String)
    (hList : text ≠ "List") (hClear : text ≠ "Clear all")
    (hdigit : ∃ c ∈ text.data, isDigit c = true) (hb : exactTotal text ≤ 9223372036) :
    handleUpdate w chatId text now =
      some (⟨Function.update w.AlarmMap chatId
          (some ((w.AlarmMap chatId).getD [] ++
            [⟨w.nextChan, now, (exactTotal text : Int) * 1000000000⟩])),
          Function.update w.waiting w.nextChan true, w.nextChan + 1⟩,
        SecondsToString (exactTotal text : Int)) ∧
    sumSeconds (FindAll (ToLower text)) = (exactTotal text : Int) ∧
    0 ≤ sumSeconds (FindAll (ToLower text)) ∧
    0 ≤ wrap64 (sumSeconds (FindAll (ToLower text)) * NANO_SECOND) ∧
    (wrap64 (sumSeconds (FindAll (ToLower text)) * NANO_SECOND)).tdiv NANO_SECOND =
      sumSeconds (FindAll (ToLower text)) := by
  have htot := sumSeconds_eq_exactTotal text (by omega)
  have hnn : (0 : Int) ≤ (exactTotal text : Int) := Int.ofNat_nonneg _
  have hle : (exactTotal text : Int) ≤ 9223372036 := by exact_mod_cast hb
  have hdelay : wrap64 ((exactTotal text : Int) * NANO_SECOND) =
      (exactTotal text : Int) * 1000000000 := by
    rw [wrap64_eq_self] <;> simp only [NANO_SECOND] <;> omega
  refine ⟨?_, htot, ?_, ?_, ?_⟩
  · rw [handleUpdate_schedule w chatId now text hList hClear hdigit, htot, hdelay]
  · rw [htot]; exact hnn
  · rw [htot, hdelay]; omega
  · rw [htot, hdelay]
    have h1 : (0 : Int) ≤ (exactTotal text : Int) * 1000000000 := by omega
    rw [NANO_SECOND, Int.tdiv_eq_ediv h1 (by decide)]
    omega

theorem delay_nonneg_of_exactTotal_witness :
    sumSeconds (FindAll (ToLower "1h 30")) = ((exactTotal "1h 30" : Nat) : Int) ∧
    exactTotal "1h 30" = 5400 ∧
    (wrap64 (sumSeconds (FindAll (ToLower "1h 30")) * NANO_SECOND)).tdiv NANO_SECOND =
      sumSeconds (FindAll (ToLower "1h 30")) :=
  ⟨(delay_nonneg_of_exactTotal emptyWorld 7 0 "1h 30" (by decide) (by decide)
      ⟨'1', by decide, by decide⟩ (by decide)).2.1, by decide,
   (delay_nonneg_of_exactTotal emptyWorld 7 0 "1h 30" (by decide) (by decide)
      ⟨'1', by decide, by decide⟩ (by decide)).2.2.2.2⟩

/-! ## "Clear all" when its sends complete -/

theorem sendAll_waiting (waiting : Nat → Bool) (alarms : List Alarm)
    (hwait : ∀ v ∈ alarms, waiting v.ch = true) (hnodup : (alarms.map Alarm.ch).Nodup) :
    ∃ waiting2, sendAll waiting alarms = some waiting2 := by
  induction alarms generalizing waiting with
  | nil => exact ⟨waiting, rfl⟩
  | cons v vs ih =>
    rw [List.map_cons, List.nodup_cons] at hnodup
    rw [sendAll, if_pos (hwait v (List.mem_cons_self _ _))]
    apply ih _ _ hnodup.2
    intro x hx
    have hne : x.ch ≠ v.ch := by
      intro h
      exact hnodup.1 (h ▸ List.mem_map_of_mem Alarm.ch hx)
    rw [Function.update_noteq hne]
    exact hwait x (List.mem_cons_of_mem _ hx)

theorem clear_all_completes (w : World) (chatId now : Int)
    (hwait : ∀ v ∈ (w.AlarmMap chatId).getD [], w.waiting v.ch = true)
    (hnodup : (((w.AlarmMap chatId).getD []).map Alarm.ch).Nodup) :
    ∃ w2, handleUpdate w chatId "Clear all" now = some (w2, "Done") ∧
      (w2.AlarmMap chatId).getD [] = [] ∧ ∀ c, c ≠ chatId → w2.AlarmMap c = w.AlarmMap c := by
  have h1 : ("Clear all" : String) ≠ "List" := by decide
  unfold handleUpdate
  simp only [h1, if_false, if_true]
  cases h : w.AlarmMap chatId with
  | none => exact ⟨w, rfl, by simp [h], fun _ _ => rfl⟩
  | some alarms =>
    rw [h] at hwait hnodup
    obtain ⟨waiting2, hs⟩ := sendAll_waiting w.waiting alarms hwait hnodup
    simp only [hs]
    refine ⟨_, rfl, by simp, ?_⟩
    intro c hc
    simp [Function.update, hc]

theorem clear_all_no_timers (w : World) (chatId now : Int)
    (hempty : (w.AlarmMap chatId).getD [] = []) :
    ∃ w2, handleUpdate w chatId "Clear all" now = some (w2, "Done") ∧
      (∀ c, (w2.AlarmMap c).getD [] = (w.AlarmMap c).getD []) ∧ w2.waiting = w.waiting ∧
      handleUpdate w2 chatId "Clear all" now = some (w2, "Done") ∧
      handleUpdate w2 chatId "List" now = some (w2, "List is empty") := by
  have h1 : ("Clear all" : String) ≠ "List" := by decide
  cases h : w.AlarmMap chatId with
  | none =>
    refine ⟨w, ?_, fun _ => rfl, rfl, ?_, handleUpdate_List_empty w chatId now hempty⟩ <;>
    · unfold handleUpdate
      simp [h1, h]
  | some alarms =>
    rw [h] at hempty
    simp only [Option.getD_some] at hempty
    subst hempty
    refine ⟨⟨Function.update w.AlarmMap chatId (some []), w.waiting, w.nextChan⟩, ?_, ?_, rfl,
      ?_, ?_⟩
    · unfold handleUpdate
      simp [h1, h, sendAll]
    · intro c
      by_cases hc : c = chatId
      · subst hc; simp [h]
      · simp [Function.update, hc]
    · unfold handleUpdate
      simp [h1, sendAll]
    · exact handleUpdate_List_empty _ chatId now (by simp)

/-! ## Inputs on which the program departs from its specification -/

/-- C7. "List" does not prune and does not clamp. The text "0" stores an alarm of zero
seconds at time 0 whose deadline passes at once; a "List" two seconds later, before the
firing path has pruned, formats the remaining time -2 and replies "List", newline,
"-2s (0s)". -/
theorem list_shows_negative_remaining :
    (handleUpdate emptyWorld 7 "0" 0).map
      (fun r => (handleUpdate (sendWithDelayExpired r.1 0) 7 "List" 2000000000).map Prod.snd) =
      some (some "List\n-2s (0s)") ∧
    (remaining 2000000000 ⟨0, 0, 0⟩).tdiv NANO_SECOND = -2 ∧
    (checkAlarmMap (fun _ => some [⟨0, 0, 0⟩]) 7 2000000000) 7 = some [] := by
  decide

/-- C5. "Clear all" sends on the unbuffered channel of every stored alarm. The text "0"
stores an alarm whose deadline passes at once; once its goroutine has left the select, a
"Clear all" that finds the alarm still stored never completes its send: no reply, and the
sequence is not cleared. The same happens, with no handler running in between, for the
text "9223372037s": its delay wraps to a negative number, it fires at once, and the
pruning 0.2 s later keeps it because the remaining time has wrapped to a positive one. -/
theorem clear_all_blocks :
    (handleUpdate emptyWorld 7 "0" 0).map
      (fun r => (handleUpdate (sendWithDelayExpired r.1 0) 7 "Clear all" 1).isNone) =
      some true ∧
    (handleUpdate emptyWorld 7 "9223372037s" 0).map
      (fun r => (handleUpdate (sendWithDelayFired (sendWithDelayExpired r.1 0) 7 200000000).1
        7 "Clear all" 300000000).isNone) = some true := by
  decide

/-- C9 as stated fails. For "9223372037s" the total is 9223372037 but the stored delay
wraps to -9223372036709551616, whose quotient by 1000000000 is -9223372036; for
"9223372036854775807m" the total itself wraps to -60 and the reply is "-1m 0s". -/
theorem delay_wraps_negative :
    (handleUpdate emptyWorld 7 "9223372037s" 0).map (fun r => (r.1.AlarmMap 7, r.2)) =
      some (some [⟨0, 0, -9223372036709551616⟩], "106751d 23h 47m 17s") ∧
    sumSeconds (FindAll (ToLower "9223372037s")) = 9223372037 ∧
    (-9223372036709551616 : Int).tdiv NANO_SECOND = -9223372036 ∧
    sumSeconds (FindAll (ToLower "9223372036854775807m")) = -60 ∧
    (handleUpdate emptyWorld 7 "9223372036854775807m" 0).map Prod.snd = some "-1m 0s" := by
  decide

/-- C1. The match of `(?i)\d+[smhd]?` in the text "5" followed by U+017F takes the long s
as its unit letter; no suffix of the table ends the match and Atoi rejects it, so the
handler's total is 0, where the matches of `\d+[smhd]?` give 5 minutes, 300 seconds. -/
theorem long_s_counts_zero :
    sumSeconds (FindAll (ToLower (String.mk ['5', Char.ofNat 383]))) = 0 ∧
    specTotal (String.mk ['5', Char.ofNat 383]) = 300 ∧
    FindAll (ToLower (String.mk ['5', Char.ofNat 383])) = [['5', Char.ofNat 383]] ∧
    (handleUpdate emptyWorld 7 (String.mk ['5', Char.ofNat 383]) 0).map Prod.snd =
      some "0s" := by
  decide


end AlarmBot
